import Mathlib

/-!
# Verification of the scarlet color library core

Shallow embedding of the core of the `scarlet` repository
(src/src/color_funcs.rs, src/src/colormap.rs, src/src/colors/cieluvcolor.rs).

f64 arithmetic is idealized as exact rational arithmetic (ℚ) throughout, except
where a claim is specifically about IEEE non-finite values; for that one claim a
separate finiteness-tracking model `Fl` of IEEE doubles is used.

The repository files coord.rs, colorpoint.rs, color.rs and illuminants.rs are not
part of the provided sources; the definitions taken from them are modelled from the
specification and carry a doc comment starting with `Modelled from the spec:`.
Generic trait bounds `Into<Coord>` / `From<Coord>` are rendered as explicit function
parameters `toC` / `fromC`, and the target-type conversion of colormaps as a
parameter `conv`.
-/

/-- Modelled from the spec: `Coord` (coord.rs, not under src/) is a real-valued
3-component vector with componentwise addition, scalar multiplication and Euclidean
distance (spec sections 3 and 4.1). Components are exact rationals. -/
@[ext]
structure Coord where
  x : ℚ
  y : ℚ
  z : ℚ
deriving DecidableEq

def Coord.zero : Coord := ⟨0, 0, 0⟩

/-- Modelled from the spec: componentwise vector addition (spec section 4.1). -/
def Coord.add (a b : Coord) : Coord := ⟨a.x + b.x, a.y + b.y, a.z + b.z⟩

/-- Modelled from the spec: componentwise vector subtraction (spec section 4.1,
closure of Coord under addition and scalar multiplication). -/
def Coord.sub (a b : Coord) : Coord := ⟨a.x - b.x, a.y - b.y, a.z - b.z⟩

/-- Modelled from the spec: scalar multiplication (spec section 4.1). -/
def Coord.smul (a : Coord) (r : ℚ) : Coord := ⟨a.x * r, a.y * r, a.z * r⟩

/-- Modelled from the spec: the weighted midpoint of A and B at weight w is the
affine combination A + w·(B − A) (spec section 4.1). coord.rs is not under src/.
Spec section 9 records the endpoint correspondence (which argument weight 0 favors)
as an open question; the literal formula of section 4.1 is used here. -/
def Coord.weighted_midpoint (a b : Coord) (w : ℚ) : Coord :=
  Coord.add a (Coord.smul (Coord.sub b a) w)

/-- Modelled from the spec: midpoint = weighted midpoint at w = 0.5 (spec
section 4.1). -/
def Coord.midpoint (a b : Coord) : Coord := Coord.weighted_midpoint a b (1/2)

/-- The opposite endpoint convention, w·A + (1−w)·B, matching the doc comment on
`ColorPoint::weighted_midpoint` in src/src/color_funcs.rs (a weight of 0.9 leaves
the result one tenth as affected by the second point). Used only to show that the
evaluation facts proved about `ListedColorMap.transformCoord` do not depend on the
unresolved direction of the missing coord.rs implementation. -/
def Coord.weighted_midpoint_flip (a b : Coord) (w : ℚ) : Coord :=
  Coord.add (Coord.smul a w) (Coord.smul b (1 - w))

/-- Modelled from the spec: Euclidean distance d(A,B) = sqrt of the sum of squared
component differences (spec section 4.1). -/
noncomputable def Coord.euclidean_distance (a b : Coord) : ℝ :=
  Real.sqrt (((a.x - b.x : ℚ) : ℝ) ^ 2 + ((a.y - b.y : ℚ) : ℝ) ^ 2
    + ((a.z - b.z : ℚ) : ℝ) ^ 2)

/-- The Euclidean embedding of a Coord, used to transport Mathlib's metric facts. -/
noncomputable def coordToE (c : Coord) : EuclideanSpace ℝ (Fin 3) :=
  (WithLp.equiv 2 (Fin 3 → ℝ)).symm ![(c.x : ℝ), (c.y : ℝ), (c.z : ℝ)]

/-- `ColorCalcError` from src/src/color_funcs.rs lines 11-14. -/
inductive ColorCalcError where
  | MismatchedWeights
deriving DecidableEq

/-- Rust's `Result<α, ColorCalcError>` as returned by weighted_average. -/
inductive CalcResult (α : Type) where
  | Ok (val : α)
  | Err (e : ColorCalcError)
deriving DecidableEq

/-- `ColorPoint::euclidean_distance` (src/src/color_funcs.rs lines 25-29): convert
both colors to Coord via the `Into<Coord>` bound (parameter toC) and take the Coord
distance. -/
noncomputable def ColorPoint.euclidean_distance {α : Type} (toC : α → Coord)
    (a b : α) : ℝ :=
  Coord.euclidean_distance (toC a) (toC b)

/-- `ColorPoint::weighted_midpoint` (src/src/color_funcs.rs lines 36-40): convert
to Coord, take the Coord weighted midpoint, convert back. -/
def ColorPoint.weighted_midpoint {α : Type} (toC : α → Coord) (fromC : Coord → α)
    (a b : α) (w : ℚ) : α :=
  fromC (Coord.weighted_midpoint (toC a) (toC b) w)

/-- `ColorPoint::midpoint` (src/src/color_funcs.rs lines 44-48). -/
def ColorPoint.midpoint {α : Type} (toC : α → Coord) (fromC : Coord → α)
    (a b : α) : α :=
  fromC (Coord.midpoint (toC a) (toC b))

/-- `ColorPoint::weighted_average` (src/src/color_funcs.rs lines 56-69). The guard
ensures weights is nonempty in the else branch, so the headD default is never used
(it mirrors the weights[0] access); the loop over i in 1..weights.len() reading
others[i-1] is rendered as a fold over weights.tail zipped with others, which visits
exactly the same pairs because the guard forces the lengths to agree. -/
def ColorPoint.weighted_average {α : Type} (toC : α → Coord) (fromC : Coord → α)
    (self : α) (others : List α) (weights : List ℚ) : CalcResult α :=
  if others.length + 1 ≠ weights.length then
    CalcResult.Err ColorCalcError.MismatchedWeights
  else
    let norm : ℚ := weights.sum
    let c1 : Coord := toC self
    let init : Coord := Coord.smul c1 (weights.headD 0 / norm)
    CalcResult.Ok (fromC ((weights.tail.zip others).foldl
      (fun acc p => Coord.add acc (Coord.smul (toC p.2) (p.1 / norm))) init))

/-- Follows claim C6's words, not the source: the sum over i of
weights[i]·Coord(color_i), with color_0 = self and color_i = others[i-1]. -/
def weightedCoordSum {α : Type} (toC : α → Coord) (weights : List ℚ)
    (colors : List α) : Coord :=
  (List.zipWith (fun w a => Coord.smul (toC a) w) weights colors).foldr
    Coord.add Coord.zero

/-- `NormalizeMapping` (src/src/colormap.rs lines 32-43). The source's third
constructor Cbrt applies the real cube root, which has no exact rational
counterpart; every claim constrains a normalization only through its values at 0
and 1, so an irrational self-map such as Cbrt is represented by the Generic
constructor and is never needed concretely. -/
inductive NormalizeMapping where
  | Linear
  | Generic (f : ℚ → ℚ)

/-- `NormalizeMapping::normalize` (src/src/colormap.rs lines 49-55). -/
def NormalizeMapping.normalize : NormalizeMapping → ℚ → ℚ
  | NormalizeMapping.Linear, x => x
  | NormalizeMapping.Generic f, x => f x

/-- `GradientColorMap` (src/src/colormap.rs lines 63-78). The source field named
end is a Lean keyword and is called endc here. -/
structure GradientColorMap (α : Type) where
  start : α
  endc : α
  normalization : NormalizeMapping
  padding : ℚ × ℚ

/-- Modelled from the spec: `ColorPoint::padded_gradient` (colorpoint.rs, the
module src/src/colormap.rs imports, is not under src/). Per spec section 4.4 and
the worked scenarios of section 8 — which section 9 designates as the authority on
the remap's algebraic form — the returned closure sends its argument t to the
affine combination of the endpoints in Coord space at parameter lo + t·(hi − lo).
All four worked gradient scenarios of section 8 pin down exactly this formula. -/
def paddedGradient {α : Type} (toC : α → Coord) (fromC : Coord → α) (a b : α)
    (lo hi : ℚ) : ℚ → α :=
  fun t =>
    fromC (Coord.add (toC a) (Coord.smul (Coord.sub (toC b) (toC a))
      (lo + t * (hi - lo))))

/-- `GradientColorMap::transform_single` (src/src/colormap.rs lines 101-116):
clamp the input to [0,1], apply the normalization to the clamped value, then
evaluate the padded-gradient closure on the normalized value. -/
def GradientColorMap.transform_single {α : Type} (toC : α → Coord)
    (fromC : Coord → α) (m : GradientColorMap α) (x : ℚ) : α :=
  let clamped := if x < 0 then 0 else if x > 1 then 1 else x
  paddedGradient toC fromC m.start m.endc m.padding.1 m.padding.2
    (m.normalization.normalize clamped)

/-- The clamp performed at the top of both transform_single implementations
(src/src/colormap.rs lines 104-110 and 133-139). -/
def clamp01 (x : ℚ) : ℚ := if x < 0 then 0 else if x > 1 then 1 else x

/-- The padding remap the gradient actually performs on the normalized value:
0 goes to lo, 1 goes to hi, linearly. -/
def padApply (lo hi t : ℚ) : ℚ := lo + t * (hi - lo)

/-- Affine combination of two Coords at parameter s. -/
def affineCoord (a b : Coord) (s : ℚ) : Coord :=
  Coord.add a (Coord.smul (Coord.sub b a) s)

/-- Follows claim C3's words, not the source: clamp, remap through the padding
window sending lo to 0 and hi to 1, apply the normalization to the remapped value,
then affine-combine. For comparison with the source-derived transform_single. -/
def GradientColorMap.transform_single_claim_order {α : Type} (toC : α → Coord)
    (fromC : Coord → α) (m : GradientColorMap α) (x : ℚ) : α :=
  let clamped := clamp01 x
  let remapped := (clamped - m.padding.1) / (m.padding.2 - m.padding.1)
  fromC (affineCoord (toC m.start) (toC m.endc)
    (m.normalization.normalize remapped))

/-- `ListedColorMap` (src/src/colormap.rs lines 122-126): an ordered table of raw
3-component rows. -/
structure ListedColorMap where
  vals : List Coord

/-- The Coord computed by `ListedColorMap::transform_single` (src/src/colormap.rs
lines 132-177) before the final conversion; both branches feed their Coord through
the same conversion RGBColor::from(..).convert::<T>(). The source clamps, forms
float_ind = clamped·(len−1), floors and ceils it (the `as usize` cast of a negative
float saturates at 0, matching Int.toNat), returns the exact row when the two
indices agree, and otherwise calls coord2.weighted_midpoint(&coord1, clamped) with
coord2 the upper row, coord1 the lower row and the clamped input — not the
fractional part of float_ind — as the weight. The getD default is never reached in
the source (indices are in range there). -/
def ListedColorMap.transformCoord (m : ListedColorMap) (x : ℚ) : Coord :=
  let clamped := if x < 0 then 0 else if x > 1 then 1 else x
  let float_ind := clamped * ((m.vals.length : ℚ) - 1)
  let ind1 := (⌊float_ind⌋).toNat
  let ind2 := (⌈float_ind⌉).toNat
  if ind1 = ind2 then m.vals.getD ind1 Coord.zero
  else
    Coord.weighted_midpoint (m.vals.getD ind2 Coord.zero)
      (m.vals.getD ind1 Coord.zero) clamped

/-- `ListedColorMap::transform_single` with the target-type conversion abstracted
as conv (modelling RGBColor::from followed by .convert::<T>(), applied identically
by both branches of the source). -/
def ListedColorMap.transform_single {α : Type} (conv : Coord → α)
    (m : ListedColorMap) (x : ℚ) : α :=
  conv (m.transformCoord x)

/-- The same computation as transformCoord but under the flipped weighted-midpoint
convention of Coord.weighted_midpoint_flip; only used to show evaluation facts are
independent of the unresolved midpoint direction. -/
def ListedColorMap.transformCoordFlip (m : ListedColorMap) (x : ℚ) : Coord :=
  let clamped := if x < 0 then 0 else if x > 1 then 1 else x
  let float_ind := clamped * ((m.vals.length : ℚ) - 1)
  let ind1 := (⌊float_ind⌋).toNat
  let ind2 := (⌈float_ind⌉).toNat
  if ind1 = ind2 then m.vals.getD ind1 Coord.zero
  else
    Coord.weighted_midpoint_flip (m.vals.getD ind2 Coord.zero)
      (m.vals.getD ind1 Coord.zero) clamped

/-- Follows claim C2's words, not the source: interpolate the two bounding rows at
weight f = idx − floor(idx), that is (1−f)·entry[floor(idx)] + f·entry[ceil(idx)]. -/
def listedInterpClaim (m : ListedColorMap) (x : ℚ) : Coord :=
  let idx := x * ((m.vals.length : ℚ) - 1)
  let f := idx - ⌊idx⌋
  Coord.add (Coord.smul (m.vals.getD (⌊idx⌋).toNat Coord.zero) (1 - f))
    (Coord.smul (m.vals.getD (⌈idx⌉).toNat Coord.zero) f)

/-- A three-row table with collinear equally spaced rows; any interpolation between
bounding rows at the fractional weight stays on the segment between them. -/
def lcmDemo : ListedColorMap := ⟨[⟨0,0,0⟩, ⟨1,1,1⟩, ⟨2,2,2⟩]⟩

/-- The numeric fields of `XYZColor` (color.rs is not under src/; spec section 3
describes the canonical tristimulus coordinate as a tagged real triple). The
illuminant tag is handled by passing the illuminant's white point
XYZColor::white_point(..) explicitly, since illuminants.rs is likewise absent. -/
structure XYZColor where
  x : ℚ
  y : ℚ
  z : ℚ
deriving DecidableEq

/-- `CIELUVColor` (src/src/colors/cieluvcolor.rs lines 9-18). -/
@[ext]
structure CIELUVColor where
  l : ℚ
  u : ℚ
  v : ℚ
deriving DecidableEq

/-- The shared denominator closure x + 15y + 3z of cieluvcolor.rs (lines 28-30 and
69-71). -/
def xyzDenom (c : XYZColor) : ℚ := c.x + 15 * c.y + 3 * c.z

/-- The u-chromaticity closure 4x / (x + 15y + 3z) (lines 31-33 and 72-74). -/
def uFunc (c : XYZColor) : ℚ := 4 * c.x / xyzDenom c

/-- The v-chromaticity closure 9y / (x + 15y + 3z) (lines 34-36 and 75-77). -/
def vFunc (c : XYZColor) : ℚ := 9 * c.y / xyzDenom c

/-- delta = 6/29 (lines 44 and 84). -/
def delta : ℚ := 6 / 29

/-- `CIELUVColor::from_xyz` (src/src/colors/cieluvcolor.rs lines 22-58), idealized
over exact rationals. wp stands for XYZColor::white_point(xyz.illuminant); cbrt
models f64 powf(1/3) (the real cube root has no exact rational counterpart, so it
is a parameter constrained only where the source applies it). -/
def CIELUVColor.from_xyz (cbrt : ℚ → ℚ) (wp : XYZColor) (xyz : XYZColor) :
    CIELUVColor :=
  let u_prime_n := uFunc wp
  let v_prime_n := vFunc wp
  let u_prime := uFunc xyz
  let v_prime := vFunc xyz
  let y_scaled := xyz.y / wp.y
  let l := if y_scaled ≤ delta ^ 3 then (2 / delta) ^ 3 * y_scaled
           else 116 * cbrt y_scaled - 16
  ⟨l, 13 * l * (u_prime - u_prime_n), 13 * l * (v_prime - v_prime_n)⟩

/-- `CIELUVColor::to_xyz` (src/src/colors/cieluvcolor.rs lines 65-95), idealized
over exact rationals. Note ℚ division is total with q/0 = 0; the IEEE behavior at
a zero divisor is modelled separately by toXyzF below. -/
def CIELUVColor.to_xyz (wp : XYZColor) (c : CIELUVColor) : XYZColor :=
  let u_prime_n := uFunc wp
  let v_prime_n := vFunc wp
  let u_prime := c.u / (13 * c.l) + u_prime_n
  let v_prime := c.v / (13 * c.l) + v_prime_n
  let y := if c.l ≤ 8 then wp.y * c.l * (delta / 2) ^ 3
           else wp.y * ((c.l + 16) / 116) ^ 3
  ⟨y * 9 * u_prime / (4 * v_prime), y,
    y * (12 - 3 * u_prime - 20 * v_prime) / (4 * v_prime)⟩

/-- IEEE-754 double values abstracted to an exact finite value or a non-finite
class: a finite value (exact rational — rounding and overflow are not modelled,
which does not affect the finiteness classes on the paths proved about, where every
finite intermediate is small), +infinity, -infinity, or NaN. Signed zero is not
modelled; all zeros here behave as +0, which is what the relevant source
expressions (products of literals and +0.0) produce. -/
inductive Fl where
  | fin (q : ℚ)
  | pinf
  | ninf
  | nan
deriving DecidableEq

def Fl.isFinite : Fl → Bool
  | Fl.fin _ => true
  | _ => false

def Fl.neg : Fl → Fl
  | Fl.fin q => Fl.fin (-q)
  | Fl.pinf => Fl.ninf
  | Fl.ninf => Fl.pinf
  | Fl.nan => Fl.nan

/-- IEEE addition on the finiteness classes. -/
def Fl.add : Fl → Fl → Fl
  | Fl.nan, _ => Fl.nan
  | _, Fl.nan => Fl.nan
  | Fl.pinf, Fl.ninf => Fl.nan
  | Fl.ninf, Fl.pinf => Fl.nan
  | Fl.pinf, _ => Fl.pinf
  | _, Fl.pinf => Fl.pinf
  | Fl.ninf, _ => Fl.ninf
  | _, Fl.ninf => Fl.ninf
  | Fl.fin a, Fl.fin b => Fl.fin (a + b)

def Fl.sub (a b : Fl) : Fl := a.add b.neg

/-- IEEE multiplication on the finiteness classes; 0·(±∞) = NaN. -/
def Fl.mul : Fl → Fl → Fl
  | Fl.nan, _ => Fl.nan
  | _, Fl.nan => Fl.nan
  | Fl.pinf, Fl.pinf => Fl.pinf
  | Fl.pinf, Fl.ninf => Fl.ninf
  | Fl.ninf, Fl.pinf => Fl.ninf
  | Fl.ninf, Fl.ninf => Fl.pinf
  | Fl.pinf, Fl.fin b => if 0 < b then Fl.pinf else if b < 0 then Fl.ninf else Fl.nan
  | Fl.fin a, Fl.pinf => if 0 < a then Fl.pinf else if a < 0 then Fl.ninf else Fl.nan
  | Fl.ninf, Fl.fin b => if 0 < b then Fl.ninf else if b < 0 then Fl.pinf else Fl.nan
  | Fl.fin a, Fl.ninf => if 0 < a then Fl.ninf else if a < 0 then Fl.pinf else Fl.nan
  | Fl.fin a, Fl.fin b => Fl.fin (a * b)

/-- IEEE division on the finiteness classes; finite/(+0) is a signed infinity and
0/0 = NaN. -/
def Fl.div : Fl → Fl → Fl
  | Fl.nan, _ => Fl.nan
  | _, Fl.nan => Fl.nan
  | Fl.pinf, Fl.pinf => Fl.nan
  | Fl.pinf, Fl.ninf => Fl.nan
  | Fl.ninf, Fl.pinf => Fl.nan
  | Fl.ninf, Fl.ninf => Fl.nan
  | Fl.pinf, Fl.fin b => if 0 ≤ b then Fl.pinf else Fl.ninf
  | Fl.ninf, Fl.fin b => if 0 ≤ b then Fl.ninf else Fl.pinf
  | Fl.fin _, Fl.pinf => Fl.fin 0
  | Fl.fin _, Fl.ninf => Fl.fin 0
  | Fl.fin a, Fl.fin b =>
      if b = 0 then (if 0 < a then Fl.pinf else if a < 0 then Fl.ninf else Fl.nan)
      else Fl.fin (a / b)

/-- IEEE less-or-equal: any comparison with NaN is false. -/
def Fl.ble : Fl → Fl → Bool
  | Fl.nan, _ => false
  | _, Fl.nan => false
  | Fl.ninf, _ => true
  | _, Fl.pinf => true
  | Fl.pinf, _ => false
  | _, Fl.ninf => false
  | Fl.fin a, Fl.fin b => decide (a ≤ b)

/-- powf(3.0) as iterated multiplication (exact on finite values, sign-correct on
infinities, NaN-preserving). -/
def Fl.cube (a : Fl) : Fl := (a.mul a).mul a

/-- XYZColor's numeric fields under the Fl model. -/
structure XYZF where
  x : Fl
  y : Fl
  z : Fl
deriving DecidableEq

/-- CIELUVColor's fields under the Fl model. -/
structure LUVF where
  l : Fl
  u : Fl
  v : Fl
deriving DecidableEq

/-- The denominator closure x + 15y + 3z under the Fl model. -/
def xyzDenomF (c : XYZF) : Fl := (c.x.add ((Fl.fin 15).mul c.y)).add ((Fl.fin 3).mul c.z)

def uFuncF (c : XYZF) : Fl := ((Fl.fin 4).mul c.x).div (xyzDenomF c)

def vFuncF (c : XYZF) : Fl := ((Fl.fin 9).mul c.y).div (xyzDenomF c)

/-- `CIELUVColor::to_xyz` (src/src/colors/cieluvcolor.rs lines 65-95) under the
IEEE finiteness model Fl; the same source lines as CIELUVColor.to_xyz, with every
f64 operation replaced by its Fl counterpart. -/
def toXyzF (wp : XYZF) (c : LUVF) : XYZF :=
  let u_prime_n := uFuncF wp
  let v_prime_n := vFuncF wp
  let u_prime := (c.u.div ((Fl.fin 13).mul c.l)).add u_prime_n
  let v_prime := (c.v.div ((Fl.fin 13).mul c.l)).add v_prime_n
  let y := if c.l.ble (Fl.fin 8) then
             (wp.y.mul c.l).mul (((Fl.fin delta).div (Fl.fin 2)).cube)
           else wp.y.mul (((c.l.add (Fl.fin 16)).div (Fl.fin 116)).cube)
  ⟨((y.mul (Fl.fin 9)).mul u_prime).div ((Fl.fin 4).mul v_prime),
   y,
   (y.mul (((Fl.fin 12).sub ((Fl.fin 3).mul u_prime)).sub
     ((Fl.fin 20).mul v_prime))).div ((Fl.fin 4).mul v_prime)⟩

/-- `CIELUVColor::from_xyz` (src/src/colors/cieluvcolor.rs lines 22-58) under the
Fl model; cbrtF models f64 powf(1/3). -/
def fromXyzF (cbrtF : Fl → Fl) (wp : XYZF) (xyz : XYZF) : LUVF :=
  let u_prime_n := uFuncF wp
  let v_prime_n := vFuncF wp
  let u_prime := uFuncF xyz
  let v_prime := vFuncF xyz
  let y_scaled := xyz.y.div wp.y
  let l := if y_scaled.ble ((Fl.fin delta).cube) then
             (((Fl.fin 2).div (Fl.fin delta)).cube).mul y_scaled
           else ((Fl.fin 116).mul (cbrtF y_scaled)).sub (Fl.fin 16)
  ⟨l, ((Fl.fin 13).mul l).mul (u_prime.sub u_prime_n),
      ((Fl.fin 13).mul l).mul (v_prime.sub v_prime_n)⟩

/-- An Fl value of a non-finite class (either infinity or NaN). -/
def Fl.nonfin (a : Fl) : Prop := a = Fl.pinf ∨ a = Fl.ninf ∨ a = Fl.nan

/-! ## Helper lemmas -/

theorem affineCoord_zero_param (a b : Coord) :
    Coord.add a (Coord.smul (Coord.sub b a) 0) = a := by
  ext <;> simp [Coord.add, Coord.smul, Coord.sub]

theorem affineCoord_one_param (a b : Coord) :
    Coord.add a (Coord.smul (Coord.sub b a) 1) = b := by
  ext <;> simp [Coord.add, Coord.smul, Coord.sub]

theorem coord_euclidean_distance_eq_dist (a b : Coord) :
    Coord.euclidean_distance a b = dist (coordToE a) (coordToE b) := by
  rw [EuclideanSpace.dist_eq]
  unfold Coord.euclidean_distance coordToE
  congr 1
  simp only [Fin.sum_univ_three, Real.dist_eq, WithLp.equiv_symm_pi_apply,
    Matrix.cons_val_zero, Matrix.cons_val_one, Matrix.head_cons, Matrix.cons_val_two,
    Matrix.tail_cons, sq_abs]
  push_cast
  ring

/-! ## C9: Euclidean distance is a metric -/

/-- C9: euclidean_distance on ColorPoint values satisfies the metric laws:
distance from a color to itself is 0, it is symmetric, it satisfies the triangle
inequality, and it is never negative. -/
theorem euclidean_distance_metric {α : Type} (toC : α → Coord) (A B C : α) :
    ColorPoint.euclidean_distance toC A A = 0 ∧
    ColorPoint.euclidean_distance toC A B = ColorPoint.euclidean_distance toC B A ∧
    ColorPoint.euclidean_distance toC A B ≤
      ColorPoint.euclidean_distance toC A C + ColorPoint.euclidean_distance toC C B ∧
    0 ≤ ColorPoint.euclidean_distance toC A B := by
  unfold ColorPoint.euclidean_distance
  rw [coord_euclidean_distance_eq_dist, coord_euclidean_distance_eq_dist,
    coord_euclidean_distance_eq_dist, coord_euclidean_distance_eq_dist,
    coord_euclidean_distance_eq_dist]
  exact ⟨dist_self _, dist_comm _ _, dist_triangle _ _ _, dist_nonneg⟩

/-! ## C4: default-padding gradient endpoints -/

/-- C4: for a GradientColorMap with the default padding (0,1) whose normalization
sends 0 to 0 and 1 to 1 (and whose color type round-trips through Coord),
transform_single returns the start color for every input at most 0 and the end
color for every input at least 1. -/
theorem gradient_default_padding_endpoints {α : Type} (toC : α → Coord)
    (fromC : Coord → α) (hinv : ∀ a, fromC (toC a) = a) (m : GradientColorMap α)
    (hpad : m.padding = (0, 1))
    (hn0 : m.normalization.normalize 0 = 0)
    (hn1 : m.normalization.normalize 1 = 1) (x : ℚ) :
    (x ≤ 0 → m.transform_single toC fromC x = m.start) ∧
    (1 ≤ x → m.transform_single toC fromC x = m.endc) := by
  constructor
  · intro hx
    have hcl : (if x < 0 then (0:ℚ) else if x > 1 then 1 else x) = 0 := by
      by_cases h : x < 0
      · simp [h]
      · have hx0 : x = 0 := le_antisymm hx (not_lt.mp h)
        simp [hx0]
    simp only [GradientColorMap.transform_single, paddedGradient, hpad, hcl, hn0]
    have hs : (0:ℚ) + 0 * (1 - 0) = 0 := by norm_num
    simp only [hs]
    rw [affineCoord_zero_param]
    exact hinv _
  · intro hx
    have hcl : (if x < 0 then (0:ℚ) else if x > 1 then 1 else x) = 1 := by
      by_cases h : x > 1
      · have hne : ¬ x < 0 := by linarith
        simp [h, hne]
      · have hx1 : x = 1 := le_antisymm (not_lt.mp h) hx
        have hne : ¬ x < 0 := by rw [hx1]; norm_num
        simp [hx1]
    simp only [GradientColorMap.transform_single, paddedGradient, hpad, hcl, hn1]
    have hs : (0:ℚ) + 1 * (1 - 0) = 1 := by norm_num
    simp only [hs]
    rw [affineCoord_one_param]
    exact hinv _

/-- Witness for C4 at a concrete linear gradient and the inputs -1 and 2. -/
theorem gradient_default_padding_endpoints_witness :
    GradientColorMap.transform_single id id
      ⟨⟨0,0,0⟩, ⟨1,1,1⟩, NormalizeMapping.Linear, (0, 1)⟩ (-1) = ⟨0,0,0⟩ ∧
    GradientColorMap.transform_single id id
      ⟨⟨0,0,0⟩, ⟨1,1,1⟩, NormalizeMapping.Linear, (0, 1)⟩ 2 = ⟨1,1,1⟩ := by
  constructor
  · exact (gradient_default_padding_endpoints id id (fun a => rfl)
      ⟨⟨0,0,0⟩, ⟨1,1,1⟩, NormalizeMapping.Linear, (0, 1)⟩ rfl rfl rfl (-1)).1
      (by norm_num)
  · exact (gradient_default_padding_endpoints id id (fun a => rfl)
      ⟨⟨0,0,0⟩, ⟨1,1,1⟩, NormalizeMapping.Linear, (0, 1)⟩ rfl rfl rfl 2).2
      (by norm_num)

/-! ## C1: padded gradient at the padding bounds -/

/-- C1 counterexample: a linear gradient with padding (1/4, 3/4) — whose
normalization sends 0 to 0 and 1 to 1 and whose padding satisfies
0 ≤ lo < hi ≤ 1 — does not return the start color at lo nor the end color at
hi. -/
theorem gradient_padding_counterexample :
    NormalizeMapping.Linear.normalize 0 = 0 ∧
    NormalizeMapping.Linear.normalize 1 = 1 ∧
    ((0:ℚ) ≤ 1/4 ∧ (1/4:ℚ) < 3/4 ∧ (3/4:ℚ) ≤ 1) ∧
    GradientColorMap.transform_single id id
      ⟨⟨0,0,0⟩, ⟨1,1,1⟩, NormalizeMapping.Linear, (1/4, 3/4)⟩ (1/4) ≠
      (⟨⟨0,0,0⟩, ⟨1,1,1⟩, NormalizeMapping.Linear, (1/4, 3/4)⟩ :
        GradientColorMap Coord).start ∧
    GradientColorMap.transform_single id id
      ⟨⟨0,0,0⟩, ⟨1,1,1⟩, NormalizeMapping.Linear, (1/4, 3/4)⟩ (3/4) ≠
      (⟨⟨0,0,0⟩, ⟨1,1,1⟩, NormalizeMapping.Linear, (1/4, 3/4)⟩ :
        GradientColorMap Coord).endc := by
  refine ⟨rfl, rfl, by norm_num, ?_, ?_⟩ <;>
    norm_num [GradientColorMap.transform_single, paddedGradient,
      NormalizeMapping.normalize, Coord.add, Coord.smul, Coord.sub, Coord.mk.injEq]

/-- C1 amended: with padding (lo, hi), 0 ≤ lo < hi ≤ 1, and a normalization
sending 0 to 0 and 1 to 1, transform_single(0) is the Coord-affine mix of start
and end at parameter lo and transform_single(1) is the mix at parameter hi (the
padding trims the outer portions of the implicit gradient; the pure endpoint
colors are not produced at lo and hi). -/
theorem gradient_padding_amended {α : Type} (toC : α → Coord) (fromC : Coord → α)
    (m : GradientColorMap α) (h0 : 0 ≤ m.padding.1)
    (h1 : m.padding.1 < m.padding.2) (h2 : m.padding.2 ≤ 1)
    (hn0 : m.normalization.normalize 0 = 0)
    (hn1 : m.normalization.normalize 1 = 1) :
    m.transform_single toC fromC 0 =
      fromC (affineCoord (toC m.start) (toC m.endc) m.padding.1) ∧
    m.transform_single toC fromC 1 =
      fromC (affineCoord (toC m.start) (toC m.endc) m.padding.2) := by
  have hc0 : (if (0:ℚ) < 0 then (0:ℚ) else if (0:ℚ) > 1 then 1 else 0) = 0 := by
    norm_num
  have hc1 : (if (1:ℚ) < 0 then (0:ℚ) else if (1:ℚ) > 1 then 1 else 1) = 1 := by
    norm_num
  constructor
  · simp only [GradientColorMap.transform_single, paddedGradient, hc0, hn0,
      affineCoord]
    apply congrArg
    ext <;> simp [Coord.add, Coord.smul, Coord.sub]
  · simp only [GradientColorMap.transform_single, paddedGradient, hc1, hn1,
      affineCoord]
    apply congrArg
    ext <;> simp [Coord.add, Coord.smul, Coord.sub]

/-- Witness for the amended C1 at a concrete linear gradient padded to
(1/4, 3/4). -/
theorem gradient_padding_amended_witness :
    GradientColorMap.transform_single id id
      ⟨⟨0,0,0⟩, ⟨1,1,1⟩, NormalizeMapping.Linear, (1/4, 3/4)⟩ 0 =
      ⟨1/4, 1/4, 1/4⟩ ∧
    GradientColorMap.transform_single id id
      ⟨⟨0,0,0⟩, ⟨1,1,1⟩, NormalizeMapping.Linear, (1/4, 3/4)⟩ 1 =
      ⟨3/4, 3/4, 3/4⟩ := by
  have h := gradient_padding_amended id id
    ⟨⟨0,0,0⟩, ⟨1,1,1⟩, NormalizeMapping.Linear, (1/4, 3/4)⟩
    (by norm_num) (by norm_num) (by norm_num) rfl rfl
  refine ⟨h.1.trans ?_, h.2.trans ?_⟩ <;>
    norm_num [affineCoord, Coord.add, Coord.smul, Coord.sub, Coord.mk.injEq]

/-! ## C3: order of clamping, padding remap and normalization -/

/-- C3 counterexample: for the squaring normalization and padding (1/4, 3/4) the
source computes clamp, then normalize, then the padding remap — giving 3/8 at
input 1/2 — while the claimed order (clamp, padding remap sending lo to 0 and hi
to 1, then normalize) gives 1/4; the two disagree. -/
theorem gradient_order_counterexample :
    GradientColorMap.transform_single id id
      ⟨⟨0,0,0⟩, ⟨1,1,1⟩, NormalizeMapping.Generic (fun q => q * q), (1/4, 3/4)⟩
      (1/2) = ⟨3/8, 3/8, 3/8⟩ ∧
    GradientColorMap.transform_single_claim_order id id
      ⟨⟨0,0,0⟩, ⟨1,1,1⟩, NormalizeMapping.Generic (fun q => q * q), (1/4, 3/4)⟩
      (1/2) = ⟨1/4, 1/4, 1/4⟩ ∧
    (⟨3/8, 3/8, 3/8⟩ : Coord) ≠ ⟨1/4, 1/4, 1/4⟩ := by
  refine ⟨?_, ?_, ?_⟩ <;>
    norm_num [GradientColorMap.transform_single,
      GradientColorMap.transform_single_claim_order, paddedGradient, clamp01,
      affineCoord, NormalizeMapping.normalize, Coord.add, Coord.smul, Coord.sub,
      Coord.mk.injEq]

/-- C3 amended: transform_single clamps x to [0,1], applies the normalization
mapping to the clamped value, then remaps the normalized value through the
padding window sending 0 to lo and 1 to hi, and finally affine-combines start and
end in Coord space at the resulting parameter: the normalization is applied
before the padding remap, and the remap runs toward the window, not out of it. -/
theorem gradient_order_amended {α : Type} (toC : α → Coord) (fromC : Coord → α)
    (m : GradientColorMap α) (x : ℚ) :
    m.transform_single toC fromC x =
      fromC (affineCoord (toC m.start) (toC m.endc)
        (padApply m.padding.1 m.padding.2
          (m.normalization.normalize (clamp01 x)))) := rfl

/-! ## C5: listed colormap at exact grid points -/

/-- C5: for a ListedColorMap with at least two rows, transform_single(0) is the
first row and transform_single(1) is the last row, each fed through the conversion
with no interpolation applied; for a 5-row table, transform_single(1/2) is the
middle (third) row. -/
theorem listed_exact_rows {α : Type} (conv : Coord → α) (m : ListedColorMap)
    (hN : 2 ≤ m.vals.length) :
    m.transform_single conv 0 = conv (m.vals.getD 0 Coord.zero) ∧
    m.transform_single conv 1 = conv (m.vals.getD (m.vals.length - 1) Coord.zero) ∧
    (m.vals.length = 5 →
      m.transform_single conv (1/2) = conv (m.vals.getD 2 Coord.zero)) := by
  refine ⟨?_, ?_, ?_⟩
  · unfold ListedColorMap.transform_single ListedColorMap.transformCoord
    norm_num
  · have h1 : (1:ℕ) ≤ m.vals.length := le_trans one_le_two hN
    have hcast : ((m.vals.length : ℚ) - 1) = ((m.vals.length - 1 : ℕ) : ℚ) := by
      rw [Nat.cast_sub h1, Nat.cast_one]
    unfold ListedColorMap.transform_single ListedColorMap.transformCoord
    rw [hcast]
    norm_num [Int.floor_natCast, Int.ceil_natCast, Int.toNat_natCast]
  · intro h5
    have hf2 : ⌊(2 : ℚ)⌋ = 2 := by
      rw [show (2:ℚ) = ((2:ℤ):ℚ) by norm_num]
      exact Int.floor_intCast 2
    have hc2 : ⌈(2 : ℚ)⌉ = 2 := by
      rw [show (2:ℚ) = ((2:ℤ):ℚ) by norm_num]
      exact Int.ceil_intCast 2
    unfold ListedColorMap.transform_single ListedColorMap.transformCoord
    rw [h5]
    norm_num [hf2, hc2, show Int.toNat 2 = 2 from rfl]

/-- Witness for C5 on a concrete 5-row table with the identity conversion. -/
theorem listed_exact_rows_witness :
    ListedColorMap.transform_single id
      ⟨[⟨0,0,0⟩, ⟨1,1,1⟩, ⟨2,2,2⟩, ⟨3,3,3⟩, ⟨4,4,4⟩]⟩ 0 = ⟨0,0,0⟩ ∧
    ListedColorMap.transform_single id
      ⟨[⟨0,0,0⟩, ⟨1,1,1⟩, ⟨2,2,2⟩, ⟨3,3,3⟩, ⟨4,4,4⟩]⟩ 1 = ⟨4,4,4⟩ ∧
    ListedColorMap.transform_single id
      ⟨[⟨0,0,0⟩, ⟨1,1,1⟩, ⟨2,2,2⟩, ⟨3,3,3⟩, ⟨4,4,4⟩]⟩ (1/2) = ⟨2,2,2⟩ := by
  have h := listed_exact_rows id
    ⟨[⟨0,0,0⟩, ⟨1,1,1⟩, ⟨2,2,2⟩, ⟨3,3,3⟩, ⟨4,4,4⟩]⟩ (by norm_num)
  exact ⟨h.1.trans rfl, h.2.1.trans rfl, (h.2.2 (by norm_num)).trans rfl⟩

/-! ## C2: listed colormap interpolation between grid points -/

/-- C2 evaluation at a failing input: on the collinear 3-row table lcmDemo at
x = 1/4 (where idx = 1/2 is not an integer, so the claim requires the
interpolation of rows 0 and 1 at weight 1/2, that is (1/2, 1/2, 1/2)), the source
computation — which passes the clamped input 1/4, not the fractional part 1/2, as
the weighted-midpoint weight — produces (3/4, 3/4, 3/4), and under the flipped
midpoint convention it produces (1/4, 1/4, 1/4); in both conventions the result
differs from the claimed interpolation. -/
theorem listed_interp_bug_eval :
    lcmDemo.transformCoord (1/4) = ⟨3/4, 3/4, 3/4⟩ ∧
    lcmDemo.transformCoordFlip (1/4) = ⟨1/4, 1/4, 1/4⟩ ∧
    listedInterpClaim lcmDemo (1/4) = ⟨1/2, 1/2, 1/2⟩ ∧
    lcmDemo.transformCoord (1/4) ≠ listedInterpClaim lcmDemo (1/4) ∧
    lcmDemo.transformCoordFlip (1/4) ≠ listedInterpClaim lcmDemo (1/4) := by
  have hf : ⌊(1/2 : ℚ)⌋ = 0 := by
    rw [Int.floor_eq_iff]
    norm_num
  have hc : ⌈(1/2 : ℚ)⌉ = 1 := by
    rw [Int.ceil_eq_iff]
    norm_num
  refine ⟨?_, ?_, ?_, ?_, ?_⟩ <;>
    norm_num [ListedColorMap.transformCoord, ListedColorMap.transformCoordFlip,
      listedInterpClaim, lcmDemo, hf, hc, Coord.weighted_midpoint,
      Coord.weighted_midpoint_flip, Coord.add, Coord.smul, Coord.sub,
      Coord.mk.injEq]

/-! ## C6: weighted_average -/

theorem weighted_average_loop {α : Type} (toC : α → Coord) (norm : ℚ) :
    ∀ (ws : List ℚ) (os : List α) (init : Coord),
      (ws.zip os).foldl
        (fun acc p => Coord.add acc (Coord.smul (toC p.2) (p.1 / norm))) init =
      Coord.add init (Coord.smul (weightedCoordSum toC ws os) (1 / norm)) := by
  intro ws
  induction ws with
  | nil =>
    intro os init
    ext <;>
      simp [weightedCoordSum, Coord.add, Coord.smul, Coord.zero]
  | cons w wt ih =>
    intro os init
    cases os with
    | nil =>
      ext <;>
        simp [weightedCoordSum, Coord.add, Coord.smul, Coord.zero]
    | cons o ot =>
      simp only [List.zip_cons_cons, List.foldl_cons, ih, weightedCoordSum,
        List.zipWith_cons_cons, List.foldr_cons]
      have hrest : (List.zipWith (fun w a => Coord.smul (toC a) w) wt ot).foldr
          Coord.add Coord.zero = weightedCoordSum toC wt ot := rfl
      rw [hrest]
      ext <;> simp [Coord.add, Coord.smul] <;> ring

/-- C6: weighted_average returns the MismatchedWeights failure value exactly when
the number of weights differs from the number of colors (self plus others); when
the counts agree it returns Ok of the conversion of the weight-normalized Coord
combination (sum of weights[i]·Coord(color_i)) / (sum of weights), with
color_0 = self and color_i = others[i-1]. -/
theorem weighted_average_spec {α : Type} (toC : α → Coord) (fromC : Coord → α)
    (self : α) (others : List α) (weights : List ℚ) :
    (ColorPoint.weighted_average toC fromC self others weights =
        CalcResult.Err ColorCalcError.MismatchedWeights ↔
      weights.length ≠ others.length + 1) ∧
    (weights.length = others.length + 1 →
      ColorPoint.weighted_average toC fromC self others weights =
        CalcResult.Ok (fromC (Coord.smul
          (weightedCoordSum toC weights (self :: others)) (1 / weights.sum)))) := by
  by_cases hlen : others.length + 1 = weights.length
  · constructor
    · constructor
      · intro habs
        rw [ColorPoint.weighted_average, if_neg (by omega)] at habs
        exact absurd habs (by simp)
      · intro hne
        exact absurd hlen.symm hne
    · intro _
      cases weights with
      | nil => simp at hlen
      | cons w0 wt =>
        rw [ColorPoint.weighted_average, if_neg (by omega)]
        simp only [List.headD_cons, List.tail_cons]
        rw [weighted_average_loop]
        apply congrArg
        apply congrArg
        have hcons : weightedCoordSum toC (w0 :: wt) (self :: others) =
            Coord.add (Coord.smul (toC self) w0) (weightedCoordSum toC wt others) := by
          simp [weightedCoordSum]
        rw [hcons]
        ext <;> simp [Coord.add, Coord.smul, List.sum_cons] <;> ring
  · constructor
    · rw [ColorPoint.weighted_average, if_pos (by omega)]
      simp only [true_iff]
      omega
    · intro heq
      exact absurd heq.symm hlen

/-- Witness for C6: two colors with weights 1 and 3 average to the quarter point,
and a mismatched weight list fails. -/
theorem weighted_average_spec_witness :
    ColorPoint.weighted_average id id (⟨1,0,0⟩ : Coord) [⟨0,1,0⟩] [1,3] =
      CalcResult.Ok ⟨1/4, 3/4, 0⟩ ∧
    ColorPoint.weighted_average id id (⟨1,0,0⟩ : Coord) [⟨0,1,0⟩] [1] =
      CalcResult.Err ColorCalcError.MismatchedWeights := by
  constructor
  · have h := (weighted_average_spec id id (⟨1,0,0⟩ : Coord) [⟨0,1,0⟩] [1,3]).2
      (by norm_num)
    rw [h]
    norm_num [weightedCoordSum, Coord.add, Coord.smul, Coord.zero, Coord.mk.injEq]
  · exact (weighted_average_spec id id (⟨1,0,0⟩ : Coord) [⟨0,1,0⟩] [1]).1.mpr
      (by norm_num)

/-! ## C7: weighted midpoint -/

/-- C7: weighted_midpoint(A, B, w) is the color of the affine combination
Coord(A) + w·(Coord(B) − Coord(A)); in particular weight 0 returns A and weight 1
returns B when the color type round-trips through Coord, and midpoint is the
weighted midpoint at w = 1/2. -/
theorem weighted_midpoint_affine {α : Type} (toC : α → Coord) (fromC : Coord → α)
    (hinv : ∀ a, fromC (toC a) = a) (A B : α) (w : ℚ) :
    ColorPoint.weighted_midpoint toC fromC A B w =
      fromC (Coord.add (toC A) (Coord.smul (Coord.sub (toC B) (toC A)) w)) ∧
    ColorPoint.weighted_midpoint toC fromC A B 0 = A ∧
    ColorPoint.weighted_midpoint toC fromC A B 1 = B ∧
    ColorPoint.midpoint toC fromC A B =
      ColorPoint.weighted_midpoint toC fromC A B (1/2) := by
  refine ⟨rfl, ?_, ?_, rfl⟩
  · unfold ColorPoint.weighted_midpoint Coord.weighted_midpoint
    rw [affineCoord_zero_param]
    exact hinv A
  · unfold ColorPoint.weighted_midpoint Coord.weighted_midpoint
    rw [affineCoord_one_param]
    exact hinv B

/-- Witness for C7 on concrete Coord colors with the identity embedding. -/
theorem weighted_midpoint_affine_witness :
    ColorPoint.weighted_midpoint id id (⟨0,0,0⟩ : Coord) ⟨2,4,6⟩ 0 = ⟨0,0,0⟩ ∧
    ColorPoint.weighted_midpoint id id (⟨0,0,0⟩ : Coord) ⟨2,4,6⟩ 1 = ⟨2,4,6⟩ ∧
    ColorPoint.midpoint id id (⟨0,0,0⟩ : Coord) ⟨2,4,6⟩ =
      ColorPoint.weighted_midpoint id id (⟨0,0,0⟩ : Coord) ⟨2,4,6⟩ (1/2) := by
  have h := weighted_midpoint_affine id id (fun a => rfl) (⟨0,0,0⟩ : Coord)
    ⟨2,4,6⟩ (1/2)
  exact ⟨h.2.1, h.2.2.1, h.2.2.2⟩

/-! ## C8: CIELUV round trip under a fixed illuminant -/

/-- C8 amended: for a white point with positive y, a CIELUV color with positive
luminance whose recovered v-chromaticity v/(13l) + v_n is nonzero, and a cube-root
routine exact at the cube it is applied to, converting to XYZ and back under the
same white point reproduces l, u and v exactly (in particular within 1e-6). -/
theorem cieluv_roundtrip_amended (cbrt : ℚ → ℚ) (wp : XYZColor) (c : CIELUVColor)
    (hwp : 0 < wp.y) (hl : 0 < c.l)
    (hv : c.v / (13 * c.l) + vFunc wp ≠ 0)
    (hcbrt : 8 < c.l → cbrt (((c.l + 16) / 116) ^ 3) = (c.l + 16) / 116) :
    CIELUVColor.from_xyz cbrt wp (CIELUVColor.to_xyz wp c) = c := by
  obtain ⟨l, u, v⟩ := c
  simp only at hl hv hcbrt
  have hl0 : l ≠ 0 := ne_of_gt hl
  have h13 : (13 : ℚ) * l ≠ 0 := by positivity
  set un : ℚ := uFunc wp with hun
  set vn : ℚ := vFunc wp with hvn
  set U : ℚ := u / (13 * l) + un with hU
  set V : ℚ := v / (13 * l) + vn with hV
  have hV0 : V ≠ 0 := hv
  have hwp0 : wp.y ≠ 0 := ne_of_gt hwp
  -- the y channel produced by to_xyz, in both branches
  set Y : ℚ := if l ≤ 8 then wp.y * l * (delta / 2) ^ 3
    else wp.y * ((l + 16) / 116) ^ 3 with hY
  have hYpos : 0 < Y := by
    rw [hY]
    split
    · have : (0:ℚ) < (delta / 2) ^ 3 := by rw [delta]; norm_num
      positivity
    · have hpos : (0:ℚ) < ((l + 16) / 116) ^ 3 := by positivity
      positivity
  have hY0 : Y ≠ 0 := ne_of_gt hYpos
  -- to_xyz, expressed through the abbreviations
  have hxyz : CIELUVColor.to_xyz wp ⟨l, u, v⟩ =
      ⟨Y * 9 * U / (4 * V), Y, Y * (12 - 3 * U - 20 * V) / (4 * V)⟩ := rfl
  rw [hxyz]
  -- the denominator of the produced coordinate
  have hdenom : xyzDenom ⟨Y * 9 * U / (4 * V), Y, Y * (12 - 3 * U - 20 * V) / (4 * V)⟩
      = 9 * Y / V := by
    rw [xyzDenom]
    field_simp
    ring
  have hu2 : uFunc ⟨Y * 9 * U / (4 * V), Y, Y * (12 - 3 * U - 20 * V) / (4 * V)⟩ = U := by
    rw [uFunc, hdenom]
    field_simp
    ring
  have hv2 : vFunc ⟨Y * 9 * U / (4 * V), Y, Y * (12 - 3 * U - 20 * V) / (4 * V)⟩ = V := by
    rw [vFunc, hdenom]
    field_simp
  -- the recovered luminance
  have hls : Y / wp.y = if l ≤ 8 then l * (delta / 2) ^ 3 else ((l + 16) / 116) ^ 3 := by
    rw [hY]
    split
    · field_simp
      ring
    · field_simp
      ring
  have hlrec : (if Y / wp.y ≤ delta ^ 3 then (2 / delta) ^ 3 * (Y / wp.y)
      else 116 * cbrt (Y / wp.y) - 16) = l := by
    by_cases h8 : l ≤ 8
    · have hsc : Y / wp.y = l * (delta / 2) ^ 3 := by rw [hls, if_pos h8]
      have hcond : Y / wp.y ≤ delta ^ 3 := by
        rw [hsc, delta]
        norm_num
        linarith
      rw [if_pos hcond, hsc, delta]
      norm_num
      ring
    · have h8' : 8 < l := not_le.mp h8
      have hsc : Y / wp.y = ((l + 16) / 116) ^ 3 := by rw [hls, if_neg h8]
      have hcond : ¬ (Y / wp.y ≤ delta ^ 3) := by
        rw [hsc, delta]
        push_neg
        have h1 : (6:ℚ)/29 < (l + 16) / 116 := by
          rw [div_lt_div_iff₀ (by norm_num) (by norm_num)]
          linarith
        have h2 : ((6:ℚ)/29) ^ 3 < ((l + 16) / 116) ^ 3 := by
          gcongr
        exact h2
      rw [if_neg hcond, hsc, hcbrt h8']
      field_simp
  -- assemble the three components
  show CIELUVColor.mk _ _ _ = CIELUVColor.mk l u v
  ext
  · exact hlrec
  · show 13 * _ * (_ - _) = u
    rw [hu2, hlrec, hU, hun]
    field_simp
    ring
  · show 13 * _ * (_ - _) = v
    rw [hv2, hlrec, hV, hvn]
    field_simp
    ring


/-- Witness for the amended C8 at the white point (1,1,1) and the color
(l,u,v) = (4,1,1). -/
theorem cieluv_roundtrip_witness :
    CIELUVColor.from_xyz (fun q => q) ⟨1,1,1⟩
      (CIELUVColor.to_xyz ⟨1,1,1⟩ ⟨4,1,1⟩) = ⟨4,1,1⟩ := by
  refine cieluv_roundtrip_amended (fun q => q) ⟨1,1,1⟩ ⟨4,1,1⟩ (by norm_num)
    (by norm_num) ?_ ?_
  · show (1:ℚ) / (13 * 4) + vFunc ⟨1,1,1⟩ ≠ 0
    norm_num [vFunc, xyzDenom]
  · intro h
    exact absurd h (by norm_num)

/-- C8 counterexample: at zero luminance the round trip fails. For the white
point (1,1,1) and the color (0,1,0), to_xyz divides u by 13·l = 0 (total rational
division yields 0 here; the IEEE behavior is handled by the Fl model), the
produced coordinate is (0,0,0), and the recovered u component is 0, off from the
original u = 1 by far more than 1e-6. -/
theorem cieluv_roundtrip_counterexample :
    ¬ |(CIELUVColor.from_xyz (fun q => q) ⟨1,1,1⟩
        (CIELUVColor.to_xyz ⟨1,1,1⟩ ⟨0,1,0⟩)).u - (⟨0,1,0⟩ : CIELUVColor).u| ≤
      1/1000000 := by
  norm_num [CIELUVColor.from_xyz, CIELUVColor.to_xyz, uFunc, vFunc, xyzDenom,
    delta]

/-! ## C10: zero luminance produces non-finite canonical coordinates -/

theorem nonfin_isFinite_false {a : Fl} (h : a.nonfin) : a.isFinite = false := by
  rcases h with rfl | rfl | rfl <;> rfl

theorem nonfin_div_fin_zero (q : ℚ) : ((Fl.fin q).div (Fl.fin 0)).nonfin := by
  rcases lt_trichotomy 0 q with h | h | h
  · simp [Fl.div, Fl.nonfin, h, not_lt_of_gt h]
  · simp [Fl.div, Fl.nonfin, h]
  · simp [Fl.div, Fl.nonfin, h, not_lt_of_gt h]

theorem nonfin_add_fin {a : Fl} (h : a.nonfin) (c : ℚ) : (a.add (Fl.fin c)).nonfin := by
  rcases h with rfl | rfl | rfl <;> simp [Fl.add, Fl.nonfin]

theorem fin_add_nonfin (c : ℚ) {a : Fl} (h : a.nonfin) : ((Fl.fin c).add a).nonfin := by
  rcases h with rfl | rfl | rfl <;> simp [Fl.add, Fl.nonfin]

theorem nonfin_neg {a : Fl} (h : a.nonfin) : a.neg.nonfin := by
  rcases h with rfl | rfl | rfl <;> simp [Fl.neg, Fl.nonfin]

theorem nonfin_add_nonfin {a b : Fl} (ha : a.nonfin) (hb : b.nonfin) :
    (a.add b).nonfin := by
  rcases ha with rfl | rfl | rfl <;> rcases hb with rfl | rfl | rfl <;>
    simp [Fl.add, Fl.nonfin]

theorem fin_mul_nonfin (c : ℚ) {a : Fl} (h : a.nonfin) : ((Fl.fin c).mul a).nonfin := by
  rcases h with rfl | rfl | rfl <;>
    rcases lt_trichotomy 0 c with hc | hc | hc <;>
      first
        | simp [Fl.mul, Fl.nonfin, hc, not_lt_of_gt hc]
        | simp [Fl.mul, Fl.nonfin, hc]

theorem fin_zero_mul_nonfin {a : Fl} (h : a.nonfin) : ((Fl.fin 0).mul a) = Fl.nan := by
  rcases h with rfl | rfl | rfl <;> simp [Fl.mul]

theorem nan_div_any (a : Fl) : Fl.nan.div a = Fl.nan := by
  cases a <;> rfl

theorem any_div_nan (a : Fl) : a.div Fl.nan = Fl.nan := by
  cases a <;> rfl

theorem nan_add_any (a : Fl) : Fl.nan.add a = Fl.nan := by
  cases a <;> rfl

theorem any_mul_nan (a : Fl) : a.mul Fl.nan = Fl.nan := by
  cases a <;> rfl

theorem nan_mul_any (a : Fl) : Fl.nan.mul a = Fl.nan := by
  cases a <;> rfl

theorem nan_sub_fin (c : ℚ) : Fl.nan.sub (Fl.fin c) = Fl.nan := rfl

/-- C10: for any CIELUV color with l = 0 (black included) and any white point
with finite components and nonzero denominator, to_xyz divides u and v by
13·l = +0, so under IEEE semantics the produced canonical coordinate has
non-finite (in fact NaN) x and z components, and the same-illuminant round trip
does not reproduce the color (the recovered u component is NaN). -/
theorem cieluv_zero_luminance_nonfinite (u v wpx wpy wpz : ℚ) (cbrtF : Fl → Fl)
    (hden : wpx + 15 * wpy + 3 * wpz ≠ 0) :
    (toXyzF ⟨Fl.fin wpx, Fl.fin wpy, Fl.fin wpz⟩
      ⟨Fl.fin 0, Fl.fin u, Fl.fin v⟩).x.isFinite = false ∧
    (toXyzF ⟨Fl.fin wpx, Fl.fin wpy, Fl.fin wpz⟩
      ⟨Fl.fin 0, Fl.fin u, Fl.fin v⟩).z.isFinite = false ∧
    fromXyzF cbrtF ⟨Fl.fin wpx, Fl.fin wpy, Fl.fin wpz⟩
      (toXyzF ⟨Fl.fin wpx, Fl.fin wpy, Fl.fin wpz⟩ ⟨Fl.fin 0, Fl.fin u, Fl.fin v⟩)
      ≠ ⟨Fl.fin 0, Fl.fin u, Fl.fin v⟩ := by
  have hdenF : xyzDenomF ⟨Fl.fin wpx, Fl.fin wpy, Fl.fin wpz⟩ =
      Fl.fin (wpx + 15 * wpy + 3 * wpz) := rfl
  have hun : uFuncF ⟨Fl.fin wpx, Fl.fin wpy, Fl.fin wpz⟩ =
      Fl.fin (4 * wpx / (wpx + 15 * wpy + 3 * wpz)) := by
    unfold uFuncF
    rw [hdenF]
    simp [Fl.mul, Fl.div, hden]
  have hvn : vFuncF ⟨Fl.fin wpx, Fl.fin wpy, Fl.fin wpz⟩ =
      Fl.fin (9 * wpy / (wpx + 15 * wpy + 3 * wpz)) := by
    unfold vFuncF
    rw [hdenF]
    simp [Fl.mul, Fl.div, hden]
  have h13 : (Fl.fin 13).mul (Fl.fin 0) = Fl.fin 0 := by simp [Fl.mul]
  have hU : (((Fl.fin u).div ((Fl.fin 13).mul (Fl.fin 0))).add
      (uFuncF ⟨Fl.fin wpx, Fl.fin wpy, Fl.fin wpz⟩)).nonfin := by
    rw [hun, h13]
    exact nonfin_add_fin (nonfin_div_fin_zero u) _
  have hV : (((Fl.fin v).div ((Fl.fin 13).mul (Fl.fin 0))).add
      (vFuncF ⟨Fl.fin wpx, Fl.fin wpy, Fl.fin wpz⟩)).nonfin := by
    rw [hvn, h13]
    exact nonfin_add_fin (nonfin_div_fin_zero v) _
  have hy : (if (Fl.fin 0).ble (Fl.fin 8) then
      ((Fl.fin wpy).mul (Fl.fin 0)).mul (((Fl.fin delta).div (Fl.fin 2)).cube)
      else (Fl.fin wpy).mul ((((Fl.fin 0).add (Fl.fin 16)).div (Fl.fin 116)).cube))
      = Fl.fin 0 := by
    norm_num [Fl.ble, Fl.mul, Fl.div, Fl.cube, delta]
  have hxyz : toXyzF ⟨Fl.fin wpx, Fl.fin wpy, Fl.fin wpz⟩
      ⟨Fl.fin 0, Fl.fin u, Fl.fin v⟩ = ⟨Fl.nan, Fl.fin 0, Fl.nan⟩ := by
    simp only [toXyzF, hy]
    have hnum : ((Fl.fin 0).mul (Fl.fin 9)).mul
        (((Fl.fin u).div ((Fl.fin 13).mul (Fl.fin 0))).add
          (uFuncF ⟨Fl.fin wpx, Fl.fin wpy, Fl.fin wpz⟩)) = Fl.nan := by
      rw [show (Fl.fin 0).mul (Fl.fin 9) = Fl.fin 0 by simp [Fl.mul]]
      exact fin_zero_mul_nonfin hU
    have h3U : ((Fl.fin 3).mul (((Fl.fin u).div ((Fl.fin 13).mul (Fl.fin 0))).add
        (uFuncF ⟨Fl.fin wpx, Fl.fin wpy, Fl.fin wpz⟩))).nonfin :=
      fin_mul_nonfin 3 hU
    have h20V : ((Fl.fin 20).mul (((Fl.fin v).div ((Fl.fin 13).mul (Fl.fin 0))).add
        (vFuncF ⟨Fl.fin wpx, Fl.fin wpy, Fl.fin wpz⟩))).nonfin :=
      fin_mul_nonfin 20 hV
    have hinner : (((Fl.fin 12).sub ((Fl.fin 3).mul
        (((Fl.fin u).div ((Fl.fin 13).mul (Fl.fin 0))).add
          (uFuncF ⟨Fl.fin wpx, Fl.fin wpy, Fl.fin wpz⟩)))).sub
        ((Fl.fin 20).mul (((Fl.fin v).div ((Fl.fin 13).mul (Fl.fin 0))).add
          (vFuncF ⟨Fl.fin wpx, Fl.fin wpy, Fl.fin wpz⟩)))).nonfin := by
      unfold Fl.sub
      exact nonfin_add_nonfin (fin_add_nonfin 12 (nonfin_neg h3U)) (nonfin_neg h20V)
    have hznum : (Fl.fin 0).mul (((Fl.fin 12).sub ((Fl.fin 3).mul
        (((Fl.fin u).div ((Fl.fin 13).mul (Fl.fin 0))).add
          (uFuncF ⟨Fl.fin wpx, Fl.fin wpy, Fl.fin wpz⟩)))).sub
        ((Fl.fin 20).mul (((Fl.fin v).div ((Fl.fin 13).mul (Fl.fin 0))).add
          (vFuncF ⟨Fl.fin wpx, Fl.fin wpy, Fl.fin wpz⟩)))) = Fl.nan :=
      fin_zero_mul_nonfin hinner
    rw [hnum, hznum, nan_div_any]
  refine ⟨?_, ?_, ?_⟩
  · rw [hxyz]
    rfl
  · rw [hxyz]
    rfl
  · rw [hxyz]
    have huF : uFuncF (⟨Fl.nan, Fl.fin 0, Fl.nan⟩ : XYZF) = Fl.nan := by
      unfold uFuncF xyzDenomF
      simp only [nan_add_any, any_mul_nan, nan_div_any]
    have hu2 : (fromXyzF cbrtF ⟨Fl.fin wpx, Fl.fin wpy, Fl.fin wpz⟩
        ⟨Fl.nan, Fl.fin 0, Fl.nan⟩).u = Fl.nan := by
      simp only [fromXyzF, huF, hun]
      rw [show Fl.nan.sub (Fl.fin (4 * wpx / (wpx + 15 * wpy + 3 * wpz))) = Fl.nan
        from rfl]
      rw [any_mul_nan]
    intro hcontra
    have : Fl.nan = Fl.fin u := by rw [← hu2, hcontra]
    exact Fl.noConfusion this


/-- Witness for C10 at black under the white point (1,1,1). -/
theorem cieluv_zero_luminance_nonfinite_witness :
    (toXyzF ⟨Fl.fin 1, Fl.fin 1, Fl.fin 1⟩
      ⟨Fl.fin 0, Fl.fin 0, Fl.fin 0⟩).x.isFinite = false ∧
    (toXyzF ⟨Fl.fin 1, Fl.fin 1, Fl.fin 1⟩
      ⟨Fl.fin 0, Fl.fin 0, Fl.fin 0⟩).z.isFinite = false ∧
    fromXyzF (fun a => a) ⟨Fl.fin 1, Fl.fin 1, Fl.fin 1⟩
      (toXyzF ⟨Fl.fin 1, Fl.fin 1, Fl.fin 1⟩ ⟨Fl.fin 0, Fl.fin 0, Fl.fin 0⟩)
      ≠ ⟨Fl.fin 0, Fl.fin 0, Fl.fin 0⟩ :=
  cieluv_zero_luminance_nonfinite 0 0 1 1 1 (fun a => a) (by norm_num)
